import Mathlib

/-!
Verification of the tree-traversal engine in py2c/tree/visitors.py
(classes BaseTreeVisitor, RecursiveTreeVisitor, RecursiveTreeTransformer).

The embedding models Python values that can occur in a tree as the inductive
type PyVal, tree nodes as PyNode (a class object plus a list of attribute
slots, where a slot is either present with a value or absent after delattr),
and a visitor instance as a table of registered visit_<ClassName> methods
(Handlers).  The visitor methods of the source are translated function by
function; in-place mutation of a node is modelled by returning the edited
node, and the return value of a visitor method is modelled separately, so
that both the value a call returns and the state the visited node is left in
are captured.
-/

namespace Py2C

/-- Python class object of a tree node.  Dispatch in the source uses only
the unqualified class name (node.__class__.__name__); the module and the
base classes are carried along to state that they play no role. -/
structure PyClass where
  module : String
  name : String
  bases : List String
  deriving DecidableEq, Repr

mutual

/-- Python values that can appear in a tree slot or be returned by a visitor
method: None, the class attribute NONE_SENTINEL of BaseTreeVisitor (a unique
object()), an opaque non-iterable leaf, a string, a list, a tuple, or a Node
instance. -/
inductive PyVal : Type where
  | pnone : PyVal
  | sentinel : PyVal
  | pleaf : Nat → PyVal
  | pstr : String → PyVal
  | plist : List PyVal → PyVal
  | ptuple : List PyVal → PyVal
  | pnode : PyNode → PyVal

/-- Modelled from the spec: the class py2c.tree.Node is not under src/.  Per
the spec data model a Node is an opaque tree element identified by a type
tag (its concrete class) with a fixed set of named fields in a stable,
type-determined order; a field can hold a leaf value, a single child Node, a
sequence of children, or be absent/unset. -/
inductive PyNode : Type where
  | mk : PyClass → List Field → PyNode

/-- Attribute slot of a node: a declared field that currently holds a value
(present), or a declared field whose attribute has been removed by delattr
(absent). -/
inductive Field : Type where
  | present : String → PyVal → Field
  | absent : String → Field

end

def PyNode.cls : PyNode → PyClass
  | .mk c _ => c

def PyNode.fields : PyNode → List Field
  | .mk _ fs => fs

/-- Test mirroring isinstance(value, self.root_class) with the default
root_class = Node. -/
def isNode : PyVal → Bool
  | .pnode _ => true
  | _ => false

/-- Test mirroring isinstance(value, collections.Iterable): lists, tuples
and strings are iterable; None, the sentinel object() and leaves are not,
and a py2c Node defines no iteration protocol. -/
def isIterable : PyVal → Bool
  | .plist _ => true
  | .ptuple _ => true
  | .pstr _ => true
  | _ => false

/-- Elements produced by iterating an iterable Python value, as consumed by
new_list.extend(value): the elements of a list or tuple, and for a string
its characters as one-character strings. -/
def pyIter : PyVal → List PyVal
  | .plist xs => xs
  | .ptuple xs => xs
  | .pstr s => s.data.map (fun ch => PyVal.pstr (String.mk [ch]))
  | _ => []

/-- Modelled from the spec: py2c.tree.iter_fields is not under src/.  Per
the spec it enumerates the (field name, field value) pairs of a node in the
stable declared order, and a field that has been deleted (absent) is not
reported by subsequent field enumeration. -/
def iterFields (n : PyNode) : List (String × PyVal) :=
  n.fields.filterMap fun f =>
    match f with
    | .present s v => some (s, v)
    | .absent _ => none

/-- Registered visitor methods of a visitor instance: a map from attribute
name (visit_<ClassName>) to the handler, none when no such method exists.
A handler is a function of the visited node returning a Python value. -/
abbrev Handlers := String → Option (PyNode → PyVal)

/-- Visitor with no type-specific handler registered. -/
def emptyH : Handlers := fun _ => none

/-- Registering one additional handler under a given attribute name, as
defining a visit_<Name> method does.  Registration itself cannot fail. -/
def updateH (H : Handlers) (key : String) (h : PyNode → PyVal) : Handlers :=
  fun s => if s = key then some h else H s

/-- Attribute name looked up by BaseTreeVisitor.visit, line 32 of the
source: method = 'visit_' + node.__class__.__name__. -/
def methodFor (n : PyNode) : String := "visit_" ++ n.cls.name

/-- Handler resolution of BaseTreeVisitor.visit, line 33 of the source:
getattr(self, method, self.generic_visit) yields the registered handler, or
falls back to the generic fallback when none is registered (none here). -/
def resolve (H : Handlers) (n : PyNode) : Option (PyNode → PyVal) :=
  H (methodFor n)

/-- Python exceptions raised by the engine. -/
inductive PyError : Type where
  | notImplementedError : PyError
  deriving DecidableEq

/-- BaseTreeVisitor.children_visit, lines 36-37 of the source: the body is
raise NotImplementedError(), so every invocation on the base abstraction
fails; it never returns a result. -/
def BaseTreeVisitor.childrenVisit (_ : PyNode) : Except PyError PyNode :=
  .error .notImplementedError

/-!
RecursiveTreeTransformer, lines 66-113 of the source.  visit returns the
value the Python call returns; the in-place edit of a node performed by
children_visit is modelled by childrenVisit returning the edited node.
visitListAux is the loop of _visit_list accumulating new_list, and procElem
is its body for one element (what the element contributes to new_list).
-/

mutual

/-- BaseTreeVisitor.visit as inherited by RecursiveTreeTransformer: invoke
the registered visit_<name> handler, else the generic fallback
generic_visit, whose body runs self.children_visit(node) (an in-place edit
of node, observable only through the node object) and then falls off the
end without a return statement, so the call returns None. -/
def visit (H : Handlers) : PyNode → PyVal
  | n@(.mk _ fs) =>
    match resolve H n with
    | some h => h n
    | none =>
      let _ := childrenFields H fs
      PyVal.pnone
termination_by n => sizeOf n

/-- Loop of RecursiveTreeTransformer.children_visit, lines 85-94: process
the field slots in order.  Only present slots are yielded by iter_fields;
an absent slot is untouched. -/
def childrenFields (H : Handlers) : List Field → List Field
  | [] => []
  | f :: fs => childrenField H f :: childrenFields H fs
termination_by fs => sizeOf fs

/-- Body of the children_visit loop for one field slot.  A list field is
edited in place by _visit_list; a single-child Node field is visited and
then, per lines 90-94: if new_node is None, delattr(node, field) removes the
attribute, elif new_node is NONE_SENTINEL, new_node = None; and then the
setattr(node, field, new_node) on line 94 runs unconditionally (it is not
under an else), so it re-creates the attribute the delattr just removed and
the slot always ends up present.  Any other field value is untouched. -/
def childrenField (H : Handlers) : Field → Field
  | .absent s => .absent s
  | .present s (.plist xs) => .present s (.plist (visitListAux H xs []))
  | .present s (.pnode c) =>
    let newNode := visit H c
    let newNode2 :=
      match newNode with
      | .sentinel => PyVal.pnone
      | v => v
    Field.present s newNode2
  | .present s v => .present s v
termination_by f => sizeOf f

/-- Loop of RecursiveTreeTransformer._visit_list, lines 97-110: new_list
starts empty and each element of the original list appends its contribution
(procElem); the original list is only replaced by new_list after the loop,
which here is the value returned. -/
def visitListAux (H : Handlers) : List PyVal → List PyVal → List PyVal
  | [], newList => newList
  | v :: vs, newList => visitListAux H vs (newList ++ procElem H v)
termination_by l _ => sizeOf l

/-- Body of the _visit_list loop for one element: a non-Node element is
appended unchanged; a Node element is visited, and the result contributes
nothing if None (continue), the value None if it is NONE_SENTINEL, its
elements if it is any iterable (new_list.extend(value)), and otherwise the
result itself. -/
def procElem (H : Handlers) : PyVal → List PyVal
  | .pnode c =>
    match visit H c with
    | .pnone => []
    | .sentinel => [PyVal.pnone]
    | v => if isIterable v then pyIter v else [v]
  | v => [v]
termination_by v => sizeOf v

end

/-- RecursiveTreeTransformer.children_visit, lines 82-94: the node with all
of its field slots edited in place. -/
def childrenVisit (H : Handlers) (n : PyNode) : PyNode :=
  .mk n.cls (childrenFields H n.fields)

/-- RecursiveTreeTransformer.generic_visit, lines 112-113: the body is the
single statement self.children_visit(node) and there is no return statement,
so the call edits the node in place and returns None. -/
def genericVisit (H : Handlers) (n : PyNode) : PyVal :=
  let _ := childrenVisit H n
  PyVal.pnone

/-- RecursiveTreeTransformer._visit_list, lines 97-110: the rebuilt list
that replaces the contents of the original list wholesale on line 110. -/
def visitList (H : Handlers) (l : List PyVal) : List PyVal :=
  visitListAux H l []

/-!
RecursiveTreeVisitor, lines 44-63 of the source, with only the generic
fallback registered (the setting of the read-only traversal claim).  The
visitor methods return None; the observable behaviour is which nodes visit
is invoked on and in which order.  Each function threads the trace of
arguments passed to visit so far (as Python values, in call order):
visit(node) records its argument and, resolving to generic_visit, calls
children_visit; children_visit iterates the present fields in order
(value = getattr(node, field, None)), recursing into a list field via
_visit_list and into a single Node field via visit; _visit_list visits
exactly the elements that are Node instances, in list order.
-/

mutual

/-- Trace of BaseTreeVisitor.visit on RecursiveTreeVisitor with no
registered handlers: record the visited node, then generic_visit runs
children_visit on it. -/
def rvVisitTrace : PyNode → List PyVal → List PyVal
  | n@(.mk _ fs), acc => rvFieldsTrace fs (acc ++ [PyVal.pnode n])
termination_by n _ => sizeOf n

/-- Trace of the loop of RecursiveTreeVisitor.children_visit, lines 48-55:
a list field value goes to _visit_list, a Node field value is visited, any
other value (leaf, absent attribute) contributes nothing. -/
def rvFieldsTrace : List Field → List PyVal → List PyVal
  | [], acc => acc
  | .present _ (.plist xs) :: fs, acc => rvFieldsTrace fs (rvListTrace xs acc)
  | .present _ (.pnode c) :: fs, acc => rvFieldsTrace fs (rvVisitTrace c acc)
  | _ :: fs, acc => rvFieldsTrace fs acc
termination_by fs _ => sizeOf fs

/-- Trace of RecursiveTreeVisitor._visit_list, lines 57-60: visit every
element that is a Node instance, skip every other element silently. -/
def rvListTrace : List PyVal → List PyVal → List PyVal
  | [], acc => acc
  | .pnode c :: vs, acc => rvListTrace vs (rvVisitTrace c acc)
  | _ :: vs, acc => rvListTrace vs acc
termination_by vs _ => sizeOf vs

end

/-!
Specification-side description of the tree: which Nodes are reachable from
a root.  These definitions follow the spec wording (a field holds a single
child Node or a sequence of child Nodes) and are compared against the
traversal functions above.
-/

/-- Child node extracted from one Python value, when it is a Node. -/
def asNode : PyVal → Option PyNode
  | .pnode c => some c
  | _ => none

/-- Modelled from the spec: the child Nodes one field contributes — a
single child Node, or the Node elements of a sequence field, in order. -/
def fieldChildNodes : Field → List PyNode
  | .present _ (.pnode c) => [c]
  | .present _ (.plist xs) => xs.filterMap asNode
  | _ => []

/-- Modelled from the spec: all child Nodes of a node, fields in declared
order. -/
def childNodes (n : PyNode) : List PyNode :=
  n.fields.flatMap fieldChildNodes

theorem sizeOf_lt_of_mem_fieldChildNodes {c : PyNode} {f : Field}
    (h : c ∈ fieldChildNodes f) : sizeOf c < sizeOf f := by
  match f with
  | .absent s => simp [fieldChildNodes] at h
  | .present s (.pnode c0) =>
    simp [fieldChildNodes] at h
    subst h
    simp
    omega
  | .present s (.plist xs) =>
    simp only [fieldChildNodes, List.mem_filterMap] at h
    obtain ⟨v, hv, hav⟩ := h
    have hveq : v = PyVal.pnode c := by
      cases v <;> simp_all [asNode]
    subst hveq
    have h1 : sizeOf (PyVal.pnode c) < sizeOf xs := List.sizeOf_lt_of_mem hv
    simp at h1 ⊢
    omega
  | .present s .pnone | .present s .sentinel | .present s (.pleaf k)
  | .present s (.pstr s1) | .present s (.ptuple l1) =>
    simp [fieldChildNodes] at h

theorem sizeOf_lt_of_mem_childNodes {c n : PyNode}
    (h : c ∈ childNodes n) : sizeOf c < sizeOf n := by
  match n with
  | .mk cls fs =>
    simp only [childNodes, PyNode.fields, List.mem_flatMap] at h
    obtain ⟨f, hf, hcf⟩ := h
    have h1 : sizeOf c < sizeOf f := sizeOf_lt_of_mem_fieldChildNodes hcf
    have h2 : sizeOf f < sizeOf fs := List.sizeOf_lt_of_mem hf
    simp
    omega

/-- Modelled from the spec: the Nodes reachable from a root, each listed at
the position where it sits in the tree: the root itself, then, for each
child in field order, the nodes reachable from that child. -/
def reachable (n : PyNode) : List PyNode :=
  n :: (childNodes n).attach.flatMap (fun c => reachable c.1)
termination_by sizeOf n
decreasing_by exact sizeOf_lt_of_mem_childNodes c.2

/-- Class names of the nodes reachable from a root. -/
def reachableTags (n : PyNode) : List String :=
  (reachable n).map (fun m => m.cls.name)

/-!
State machine of one _visit_list call, used to state the frame property of
the list rebuild: original is the current contents of the Python list object
passed in, newList is the local new_list, pending is the rest of the
iteration over the original contents, and replaced records whether the
wholesale assignment original_list[:] = new_list on line 110 has run.
-/

structure ListPass where
  original : List PyVal
  newList : List PyVal
  pending : List PyVal
  replaced : Bool

/-- State at entry of _visit_list: new_list = [], nothing iterated yet. -/
def lpInit (l : List PyVal) : ListPass :=
  ⟨l, [], l, false⟩

/-- One step of _visit_list: while elements are pending, run the loop body
for the next element, appending its contribution to new_list and leaving
the original contents untouched; once the iteration is exhausted, perform
the wholesale replacement original_list[:] = new_list. -/
def lpStep (H : Handlers) (s : ListPass) : ListPass :=
  match s.pending with
  | v :: vs => ⟨s.original, s.newList ++ procElem H v, vs, s.replaced⟩
  | [] => if s.replaced then s else ⟨s.newList, s.newList, [], true⟩

/-- Run a given number of steps of the _visit_list state machine. -/
def lpRun (H : Handlers) : Nat → ListPass → ListPass
  | 0, s => s
  | k + 1, s => lpRun H k (lpStep H s)

/-!
Helper lemmas and concrete fixtures for the claims.
-/

theorem visitListAux_eq_append_flatMap (H : Handlers) (l acc : List PyVal) :
    visitListAux H l acc = acc ++ l.flatMap (procElem H) := by
  induction l generalizing acc with
  | nil => simp [visitListAux]
  | cons v vs ih => simp [visitListAux, ih]

theorem visitList_eq_flatMap (H : Handlers) (l : List PyVal) :
    visitList H l = l.flatMap (procElem H) := by
  simp [visitList, visitListAux_eq_append_flatMap]

def innerCls : PyClass := ⟨"py2c.example", "Inner", ["Node"]⟩

def exInner : PyNode := .mk innerCls []

def outerCls : PyClass := ⟨"py2c.example", "Outer", ["Node"]⟩

/-- Example tree: a node with a single-child field, a list field holding a
Node and a leaf, and a leaf field. -/
def exOuter : PyNode :=
  .mk outerCls
    [.present "child" (.pnode exInner),
     .present "items" (.plist [.pnode exInner, .pleaf 7]),
     .present "tag" (.pleaf 3)]

def tCls : PyClass := ⟨"py2c.example", "T", ["Node"]⟩

def tChild : PyNode := .mk tCls []

def pCls : PyClass := ⟨"py2c.example", "P", ["Node"]⟩

/-- Owner node with one single-child field c holding a T node. -/
def pOwner : PyNode := .mk pCls [.present "c" (.pnode tChild)]

/-- Visitor whose visit_T handler returns None: the delete outcome. -/
def hDeleteT : Handlers :=
  fun s => if s = "visit_T" then some (fun _ => PyVal.pnone) else none

/-- Visitor whose visit_T handler returns NONE_SENTINEL: the explicit-null
outcome. -/
def hNullT : Handlers :=
  fun s => if s = "visit_T" then some (fun _ => PyVal.sentinel) else none

/-- Visitor whose visit_T handler returns the string "xy". -/
def hStrT : Handlers :=
  fun s => if s = "visit_T" then some (fun _ => PyVal.pstr "xy") else none

/-- Visitor whose visit_T handler returns the tuple (5,). -/
def hTupleT : Handlers :=
  fun s => if s = "visit_T" then some (fun _ => PyVal.ptuple [PyVal.pleaf 5]) else none

def bCls : PyClass := ⟨"py2c.example", "B", ["Node"]⟩

def bNode : PyNode := .mk bCls []

def xNode : PyNode := .mk ⟨"py2c.example", "X", ["Node"]⟩ []

def yNode : PyNode := .mk ⟨"py2c.example", "Y", ["Node"]⟩ []

/-- Visitor whose visit_B handler deletes the node (returns None). -/
def hBDelete : Handlers :=
  fun s => if s = "visit_B" then some (fun _ => PyVal.pnone) else none

/-- Visitor whose visit_B handler splices in the two nodes x and y. -/
def hBSplice : Handlers :=
  fun s =>
    if s = "visit_B" then some (fun _ => PyVal.plist [PyVal.pnode xNode, PyVal.pnode yNode])
    else none

/-- Visitor whose visit_B handler returns NONE_SENTINEL. -/
def hBNull : Handlers :=
  fun s => if s = "visit_B" then some (fun _ => PyVal.sentinel) else none

def n1Cls : PyClass := ⟨"py2c.example", "N1", ["Node"]⟩

def n2Cls : PyClass := ⟨"py2c.example", "N2", ["Node"]⟩

def n3Cls : PyClass := ⟨"py2c.example", "N3", ["Node"]⟩

def n1Node : PyNode := .mk n1Cls []

def n2Node : PyNode := .mk n2Cls []

def n3Node : PyNode := .mk n3Cls []

/-- Visitor where visit_N2 splices in an empty sequence and visit_N1 and
visit_N3 are Keep handlers returning their node unchanged. -/
def hSpliceEmpty : Handlers :=
  fun s =>
    if s = "visit_N2" then some (fun _ => PyVal.plist [])
    else if s = "visit_N1" then some (fun n => PyVal.pnode n)
    else if s = "visit_N3" then some (fun n => PyVal.pnode n)
    else none

/-!
Claim theorems.
-/

/-- C1: the claim states that the mutating traversal with only the default
fallback is a no-op returning a tree structurally identical to the input.
The code violates it: generic_visit (lines 112-113) has no return statement,
so visiting the root returns None rather than a tree, and while visiting the
children of the root, every single-child Node field receives that None and
is overwritten with None, and every Node element of a list field is dropped.
This theorem evaluates the code at the failing input exOuter: the call
returns None (not a Node), and the in-place edited root has lost both its
child node and the node element of its list. -/
theorem c1_default_transform_not_noop :
    visit emptyH exOuter = PyVal.pnone ∧
    isNode (visit emptyH exOuter) = false ∧
    childrenVisit emptyH exOuter =
      .mk outerCls
        [.present "child" PyVal.pnone,
         .present "items" (.plist [.pleaf 7]),
         .present "tag" (.pleaf 3)] := by
  refine ⟨?_, ?_, ?_⟩ <;>
    simp [visit, childrenVisit, childrenFields, childrenField, visitListAux, procElem,
      resolve, emptyH, isNode, exOuter, exInner, outerCls, innerCls,
      PyNode.cls, PyNode.fields]

/-- C2: the claim states that the delete outcome makes the owning field
absent from subsequent field enumeration while the explicit-null outcome
leaves it present holding the marker, and that the two are never conflated.
The code violates it: on lines 90-94 the setattr(node, field, new_node) is
not under an else, so after the delattr for the delete outcome the field is
immediately re-created holding None.  At the failing input (owner node
pOwner whose field c holds a T node, handler visit_T returning None) the
field is still enumerated, holding None — exactly the state the
explicit-null outcome produces, so the two outcomes are conflated. -/
theorem c2_delete_outcome_conflated_with_explicit_null :
    childrenVisit hDeleteT pOwner = .mk pCls [.present "c" PyVal.pnone] ∧
    childrenVisit hNullT pOwner = .mk pCls [.present "c" PyVal.pnone] ∧
    childrenVisit hDeleteT pOwner = childrenVisit hNullT pOwner ∧
    iterFields (childrenVisit hDeleteT pOwner) = [("c", PyVal.pnone)] := by
  refine ⟨?_, ?_, ?_, ?_⟩ <;>
    simp [childrenVisit, childrenFields, childrenField, visit, resolve,
      hDeleteT, hNullT, methodFor, iterFields, pOwner, tChild, pCls, tCls,
      PyNode.cls, PyNode.fields]

/-- C3: the claim states that the generic fallback applies children_visit
and then returns the node itself (the Keep outcome).  The code violates it:
generic_visit (lines 112-113) calls self.children_visit(node) and then falls
off the end, so for every handler table and every node the call returns
None — the delete outcome — and never a Node. -/
theorem c3_generic_visit_returns_none_not_the_node :
    ∀ (H : Handlers) (n : PyNode),
      genericVisit H n = PyVal.pnone ∧ isNode (genericVisit H n) = false := by
  intro H n
  exact ⟨rfl, rfl⟩

/-- C4: the list rebuild iterates the old sequence in order, each element
contributing independently to the new sequence (the flatMap form), and the
contribution of a Node element is: nothing when its visit returns None,
the value None when it returns NONE_SENTINEL, the returned elements in
order when it returns a sequence of Nodes (nothing for an empty sequence),
the returned Node when it returns a Node; a non-Node element is copied
through unchanged.  The concrete conjuncts instantiate the examples of the
claim, registering Keep handlers (returning the node itself) for n1 and n3
in the empty-splice example so that only the n2 handler is exercised. -/
theorem c4_list_rebuild_contributions :
    (∀ (H : Handlers) (l : List PyVal), visitList H l = l.flatMap (procElem H)) ∧
    (∀ (H : Handlers) (n : PyNode),
      visit H n = PyVal.pnone → procElem H (PyVal.pnode n) = []) ∧
    (∀ (H : Handlers) (n : PyNode),
      visit H n = PyVal.sentinel → procElem H (PyVal.pnode n) = [PyVal.pnone]) ∧
    (∀ (H : Handlers) (n : PyNode) (xs : List PyVal),
      visit H n = PyVal.plist xs → xs.all isNode = true →
      procElem H (PyVal.pnode n) = xs) ∧
    (∀ (H : Handlers) (n m : PyNode),
      visit H n = PyVal.pnode m → procElem H (PyVal.pnode n) = [PyVal.pnode m]) ∧
    (∀ (H : Handlers) (v : PyVal), isNode v = false → procElem H v = [v]) ∧
    visitList hBDelete [PyVal.pleaf 1, PyVal.pnode bNode, PyVal.pleaf 2] =
      [PyVal.pleaf 1, PyVal.pleaf 2] ∧
    visitList hBSplice [PyVal.pleaf 1, PyVal.pnode bNode, PyVal.pleaf 2] =
      [PyVal.pleaf 1, PyVal.pnode xNode, PyVal.pnode yNode, PyVal.pleaf 2] ∧
    visitList hBNull [PyVal.pleaf 1, PyVal.pnode bNode, PyVal.pleaf 2] =
      [PyVal.pleaf 1, PyVal.pnone, PyVal.pleaf 2] ∧
    visitList hSpliceEmpty [PyVal.pnode n1Node, PyVal.pnode n2Node, PyVal.pnode n3Node] =
      [PyVal.pnode n1Node, PyVal.pnode n3Node] := by
  refine ⟨visitList_eq_flatMap, ?_, ?_, ?_, ?_, ?_, ?_, ?_, ?_, ?_⟩
  · intro H n h
    simp [procElem, h]
  · intro H n h
    simp [procElem, h]
  · intro H n xs h _
    simp [procElem, h, isIterable, pyIter]
  · intro H n m h
    simp [procElem, h, isIterable]
  · intro H v h
    cases v <;> simp_all [procElem, isNode]
  · simp [visitList, visitListAux, procElem, visit, resolve, hBDelete, methodFor,
      bNode, bCls, PyNode.cls, isIterable, pyIter]
  · simp [visitList, visitListAux, procElem, visit, resolve, hBSplice, methodFor,
      bNode, bCls, PyNode.cls, isIterable, pyIter]
  · simp [visitList, visitListAux, procElem, visit, resolve, hBNull, methodFor,
      bNode, bCls, PyNode.cls, isIterable, pyIter]
  · simp [visitList, visitListAux, procElem, visit, resolve, hSpliceEmpty, methodFor,
      n1Node, n2Node, n3Node, n1Cls, n2Cls, n3Cls, PyNode.cls, isIterable, pyIter]

/-- C4 witness: the contribution clauses applied at concrete inputs, with
each hypothesis about the handler return value discharged by evaluation. -/
theorem c4_list_rebuild_contributions_witness :
    procElem hBDelete (PyVal.pnode bNode) = [] ∧
    procElem hBNull (PyVal.pnode bNode) = [PyVal.pnone] ∧
    procElem hBSplice (PyVal.pnode bNode) = [PyVal.pnode xNode, PyVal.pnode yNode] ∧
    procElem hBDelete (PyVal.pleaf 1) = [PyVal.pleaf 1] :=
  ⟨c4_list_rebuild_contributions.2.1 hBDelete bNode
      (by simp [visit, resolve, hBDelete, methodFor, bNode, bCls, PyNode.cls]),
   c4_list_rebuild_contributions.2.2.1 hBNull bNode
      (by simp [visit, resolve, hBNull, methodFor, bNode, bCls, PyNode.cls]),
   c4_list_rebuild_contributions.2.2.2.1 hBSplice bNode
      [PyVal.pnode xNode, PyVal.pnode yNode]
      (by simp [visit, resolve, hBSplice, methodFor, bNode, bCls, PyNode.cls])
      (by simp [isNode]),
   c4_list_rebuild_contributions.2.2.2.2.2.1 hBDelete (PyVal.pleaf 1) (by simp [isNode])⟩

/-- C7: invoking children_visit on the base abstraction BaseTreeVisitor
always fails with the not-implemented error: it never silently does nothing
and never returns normally. -/
theorem c7_base_children_visit_fails :
    ∀ n : PyNode,
      BaseTreeVisitor.childrenVisit n = Except.error PyError.notImplementedError ∧
      (BaseTreeVisitor.childrenVisit n).isOk = false :=
  fun _ => ⟨rfl, rfl⟩

/-- C9: in the list rebuild, any visit result that is not a Node instance
but is iterable — whatever its elements, including strings and tuples — is
spliced: its iterated elements replace the element in the new list (None
and NONE_SENTINEL are intercepted by the earlier arms and are not iterable
values in Python anyway).  In particular a handler returning the string
"xy" makes the two one-character strings "x" and "y" elements of the
rebuilt list. -/
theorem c9_any_iterable_result_is_spliced :
    (∀ (H : Handlers) (n : PyNode) (v : PyVal),
      visit H n = v → isNode v = false → isIterable v = true →
      procElem H (PyVal.pnode n) = pyIter v) ∧
    visitList hStrT [PyVal.pnode tChild] = [PyVal.pstr "x", PyVal.pstr "y"] := by
  constructor
  · intro H n v hv hn hi
    cases v <;> simp_all [procElem, isIterable]
  · simp [visitList, visitListAux, procElem, visit, resolve, hStrT, methodFor,
      tChild, tCls, PyNode.cls, isIterable, pyIter]

/-- C9 witness: a handler returning the tuple (5,) is classified as a
splice and contributes the tuple element. -/
theorem c9_any_iterable_result_is_spliced_witness :
    procElem hTupleT (PyVal.pnode tChild) = pyIter (PyVal.ptuple [PyVal.pleaf 5]) :=
  c9_any_iterable_result_is_spliced.1 hTupleT tChild (PyVal.ptuple [PyVal.pleaf 5])
    (by simp [visit, resolve, hTupleT, methodFor, tChild, tCls, PyNode.cls])
    rfl rfl

/-- C10: handler resolution looks up the attribute named visit_ plus the
unqualified class name on the visitor, so two node types sharing a class
name resolve to the same handler whatever their module, base classes or
fields. -/
theorem c10_dispatch_depends_only_on_class_name :
    ∀ (H : Handlers) (c1 c2 : PyClass) (fs1 fs2 : List Field),
      c1.name = c2.name →
      methodFor (.mk c1 fs1) = methodFor (.mk c2 fs2) ∧
      resolve H (.mk c1 fs1) = resolve H (.mk c2 fs2) := by
  intro H c1 c2 fs1 fs2 h
  constructor <;> simp [methodFor, resolve, PyNode.cls, h]

def fooCls1 : PyClass := ⟨"py2c.modA", "Foo", ["Node"]⟩

def fooCls2 : PyClass := ⟨"py2c.modB", "Foo", ["OtherBase"]⟩

/-- C10 witness: two distinct classes named Foo from different modules with
different bases resolve identically. -/
theorem c10_dispatch_depends_only_on_class_name_witness :
    resolve hDeleteT (.mk fooCls1 []) = resolve hDeleteT (.mk fooCls2 [.absent "x"]) :=
  (c10_dispatch_depends_only_on_class_name hDeleteT fooCls1 fooCls2 [] [.absent "x"] rfl).2

theorem lpRun_of_le (H : Handlers) :
    ∀ (k : Nat) (orig acc pend : List PyVal), k ≤ pend.length →
      lpRun H k ⟨orig, acc, pend, false⟩ =
        ⟨orig, acc ++ (pend.take k).flatMap (procElem H), pend.drop k, false⟩ := by
  intro k
  induction k with
  | zero => intro orig acc pend _; simp [lpRun]
  | succ k ih =>
    intro orig acc pend hk
    match pend with
    | [] => simp at hk
    | v :: vs =>
      have hk2 : k ≤ vs.length := by simpa using hk
      simp [lpRun, lpStep, ih orig (acc ++ procElem H v) vs hk2, List.flatMap_cons]

theorem lpRun_succ_shift (H : Handlers) :
    ∀ (k : Nat) (s : ListPass), lpRun H (k + 1) s = lpStep H (lpRun H k s) := by
  intro k
  induction k with
  | zero => intro s; simp [lpRun]
  | succ k ih => intro s; rw [lpRun, ih (lpStep H s)]; rfl

/-- C8: during the iteration of _visit_list the contents of the original
list are never modified — after any number of steps that does not exhaust
the iteration, the original contents are still exactly the input and the
wholesale replacement has not happened — and only the single step after the
full pass over the elements installs the finished new_list (which equals the
rebuilt list _visit_list produces) into the original list object. -/
theorem c8_list_rebuild_replaces_wholesale_after_full_pass :
    ∀ (H : Handlers) (l : List PyVal) (k : Nat),
      (k ≤ l.length →
        (lpRun H k (lpInit l)).original = l ∧
        (lpRun H k (lpInit l)).replaced = false) ∧
      ((lpRun H (l.length + 1) (lpInit l)).original = visitList H l ∧
        (lpRun H (l.length + 1) (lpInit l)).newList = visitList H l ∧
        (lpRun H (l.length + 1) (lpInit l)).replaced = true) := by
  intro H l k
  constructor
  · intro hk
    rw [lpInit, lpRun_of_le H k l [] l hk]
    exact ⟨rfl, rfl⟩
  · rw [lpRun_succ_shift, lpInit, lpRun_of_le H l.length l [] l le_rfl]
    simp [lpStep, List.drop_length, List.take_length, visitList_eq_flatMap]

/-- C8 witness: two steps on a two-element list leave the original contents
untouched, and the step after the full pass installs the rebuilt list. -/
theorem c8_list_rebuild_replaces_wholesale_after_full_pass_witness :
    ((lpRun hBDelete 2 (lpInit [PyVal.pleaf 1, PyVal.pnode bNode])).original =
        [PyVal.pleaf 1, PyVal.pnode bNode] ∧
      (lpRun hBDelete 2 (lpInit [PyVal.pleaf 1, PyVal.pnode bNode])).replaced = false) ∧
    (lpRun hBDelete 3 (lpInit [PyVal.pleaf 1, PyVal.pnode bNode])).original =
      visitList hBDelete [PyVal.pleaf 1, PyVal.pnode bNode] :=
  ⟨(c8_list_rebuild_replaces_wholesale_after_full_pass hBDelete
      [PyVal.pleaf 1, PyVal.pnode bNode] 2).1 (by simp),
   (c8_list_rebuild_replaces_wholesale_after_full_pass hBDelete
      [PyVal.pleaf 1, PyVal.pnode bNode] 2).2.1⟩

theorem attach_flatMap {α β : Type} (l : List α) (f : α → List β) :
    l.attach.flatMap (fun x => f x.1) = l.flatMap f := by
  simp

theorem reachable_unfold (n : PyNode) :
    reachable n = n :: (childNodes n).flatMap reachable := by
  rw [reachable]
  rw [attach_flatMap]

theorem trace_spec :
    ∀ k : Nat,
      (∀ n : PyNode, sizeOf n ≤ k → ∀ acc,
        rvVisitTrace n acc = acc ++ (reachable n).map PyVal.pnode) ∧
      (∀ fs : List Field, sizeOf fs ≤ k → ∀ acc,
        rvFieldsTrace fs acc =
          acc ++ ((fs.flatMap fieldChildNodes).flatMap reachable).map PyVal.pnode) ∧
      (∀ vs : List PyVal, sizeOf vs ≤ k → ∀ acc,
        rvListTrace vs acc =
          acc ++ ((vs.filterMap asNode).flatMap reachable).map PyVal.pnode) := by
  intro k
  induction k using Nat.strong_induction_on with
  | _ k ih =>
  refine ⟨?_, ?_, ?_⟩
  · intro n hn acc
    match n with
    | .mk cls fs =>
      have hfs : sizeOf fs < k := by simp at hn; omega
      simp only [rvVisitTrace]
      rw [(ih _ hfs).2.1 fs le_rfl]
      rw [reachable_unfold]
      simp [childNodes, PyNode.fields]
  · intro fs hfs acc
    match fs with
    | [] => simp [rvFieldsTrace]
    | .absent s :: rest =>
      have hrest : sizeOf rest < k := by simp at hfs; omega
      simp only [rvFieldsTrace]
      rw [(ih _ hrest).2.1 rest le_rfl]
      simp [fieldChildNodes]
    | .present s (.pnode c) :: rest =>
      have hrest : sizeOf rest < k := by simp at hfs; omega
      have hc : sizeOf c < k := by simp at hfs; omega
      simp only [rvFieldsTrace]
      rw [(ih _ hc).1 c le_rfl acc]
      rw [(ih _ hrest).2.1 rest le_rfl]
      simp [fieldChildNodes, List.flatMap_cons, List.append_assoc]
    | .present s (.plist xs) :: rest =>
      have hrest : sizeOf rest < k := by simp at hfs; omega
      have hxs : sizeOf xs < k := by simp at hfs; omega
      simp only [rvFieldsTrace]
      rw [(ih _ hxs).2.2 xs le_rfl acc]
      rw [(ih _ hrest).2.1 rest le_rfl]
      simp [fieldChildNodes, List.flatMap_cons, List.append_assoc]
    | .present s .pnone :: rest | .present s .sentinel :: rest
    | .present s (.pleaf a) :: rest | .present s (.pstr a) :: rest
    | .present s (.ptuple a) :: rest =>
      have hrest : sizeOf rest < k := by simp at hfs; omega
      simp only [rvFieldsTrace]
      rw [(ih _ hrest).2.1 rest le_rfl]
      simp [fieldChildNodes]
  · intro vs hvs acc
    match vs with
    | [] => simp [rvListTrace]
    | .pnode c :: rest =>
      have hrest : sizeOf rest < k := by simp at hvs; omega
      have hc : sizeOf c < k := by simp at hvs; omega
      simp only [rvListTrace]
      rw [(ih _ hc).1 c le_rfl acc]
      rw [(ih _ hrest).2.2 rest le_rfl]
      simp [asNode, List.filterMap_cons, List.flatMap_cons, List.append_assoc]
    | .pnone :: rest | .sentinel :: rest | .pleaf a :: rest
    | .pstr a :: rest | .plist a :: rest | .ptuple a :: rest =>
      have hrest : sizeOf rest < k := by simp at hvs; omega
      simp only [rvListTrace]
      rw [(ih _ hrest).2.2 rest le_rfl]
      simp [asNode, List.filterMap_cons]

/-- C5: the read-only traversal with only the generic fallback registered
passes to visit exactly the Nodes reachable from the root, in traversal
order and each exactly once (the trace of visit arguments coincides with
the one-occurrence-per-tree-position enumeration of reachable Nodes), and
every value passed to visit is a Node — leaves and other non-Node values
are never passed to a handler. -/
theorem c5_read_only_traversal_visits_each_reachable_node_once :
    ∀ n : PyNode,
      rvVisitTrace n [] = (reachable n).map PyVal.pnode ∧
      (rvVisitTrace n []).all isNode = true := by
  intro n
  have h : rvVisitTrace n [] = (reachable n).map PyVal.pnode := by
    simpa using (trace_spec (sizeOf n)).1 n le_rfl []
  constructor
  · exact h
  · rw [h, List.all_eq_true]
    intro x hx
    obtain ⟨m, _, hm⟩ := List.mem_map.1 hx
    rw [← hm]
    rfl

theorem mem_reachable_self (n : PyNode) : n ∈ reachable n := by
  rw [reachable_unfold]
  exact List.mem_cons_self n _

theorem mem_reachable_of_child {x c n : PyNode}
    (hc : c ∈ childNodes n) (hx : x ∈ reachable c) : x ∈ reachable n := by
  rw [reachable_unfold]
  exact List.mem_cons_of_mem n (List.mem_flatMap.2 ⟨c, hc, hx⟩)

theorem visit_key_ne {a b : String} (h : a ≠ b) :
    ("visit_" ++ a : String) ≠ "visit_" ++ b := by
  intro he
  apply h
  have hd := congrArg String.data he
  rw [String.data_append, String.data_append] at hd
  exact String.ext (List.append_cancel_left hd)

theorem resolve_updateH_of_name_ne {H : Handlers} {t : String}
    {f : PyNode → PyVal} {n : PyNode} (h : n.cls.name ≠ t) :
    resolve (updateH H ("visit_" ++ t) f) n = resolve H n := by
  simp only [resolve, updateH, methodFor]
  rw [if_neg (visit_key_ne h)]

theorem visit_congr {H1 H2 : Handlers} {n : PyNode}
    (hres : resolve H1 n = resolve H2 n) : visit H1 n = visit H2 n := by
  match n with
  | .mk cls fs =>
    cases hr : resolve H2 (PyNode.mk cls fs) <;>
      simp [visit, hres, hr]

theorem procElem_congr {H1 H2 : Handlers} (v : PyVal)
    (h : ∀ c : PyNode, v = PyVal.pnode c → resolve H1 c = resolve H2 c) :
    procElem H1 v = procElem H2 v := by
  match v with
  | .pnode c =>
    rw [procElem, procElem, visit_congr (h c rfl)]
  | .pnone | .sentinel | .pleaf a | .pstr a | .plist a | .ptuple a =>
    simp [procElem]

theorem visitListAux_congr {H1 H2 : Handlers} :
    ∀ (vs : List PyVal),
      (∀ c ∈ vs.filterMap asNode, resolve H1 c = resolve H2 c) →
      ∀ acc, visitListAux H1 vs acc = visitListAux H2 vs acc := by
  intro vs
  induction vs with
  | nil => intro _ acc; simp [visitListAux]
  | cons v rest ih =>
    intro h acc
    have hv : procElem H1 v = procElem H2 v := by
      apply procElem_congr
      intro c hc
      apply h
      subst hc
      simp [List.filterMap_cons, asNode]
    have hrest : ∀ c ∈ rest.filterMap asNode, resolve H1 c = resolve H2 c := by
      intro c hc
      apply h
      simp only [List.mem_filterMap] at hc ⊢
      obtain ⟨a, ha, hac⟩ := hc
      exact ⟨a, List.mem_cons_of_mem v ha, hac⟩
    simp only [visitListAux]
    rw [hv, ih hrest]

theorem childrenField_congr {H1 H2 : Handlers} (f : Field)
    (h : ∀ c ∈ fieldChildNodes f, resolve H1 c = resolve H2 c) :
    childrenField H1 f = childrenField H2 f := by
  match f with
  | .absent s => simp [childrenField]
  | .present s (.pnode c) =>
    have hc : resolve H1 c = resolve H2 c := by
      apply h
      simp [fieldChildNodes]
    rw [childrenField, childrenField, visit_congr hc]
  | .present s (.plist xs) =>
    have hxs : ∀ c ∈ xs.filterMap asNode, resolve H1 c = resolve H2 c := by
      intro c hc
      apply h
      simpa [fieldChildNodes] using hc
    rw [childrenField, childrenField, visitListAux_congr xs hxs []]
  | .present s .pnone | .present s .sentinel | .present s (.pleaf a)
  | .present s (.pstr a) | .present s (.ptuple a) =>
    simp [childrenField]

theorem childrenFields_congr {H1 H2 : Handlers} :
    ∀ (fs : List Field),
      (∀ c ∈ fs.flatMap fieldChildNodes, resolve H1 c = resolve H2 c) →
      childrenFields H1 fs = childrenFields H2 fs := by
  intro fs
  induction fs with
  | nil => intro _; simp [childrenFields]
  | cons f rest ih =>
    intro h
    simp only [childrenFields]
    rw [childrenField_congr f, ih]
    · intro c hc
      apply h
      simp only [List.mem_flatMap] at hc ⊢
      obtain ⟨a, ha, hac⟩ := hc
      exact ⟨a, List.mem_cons_of_mem f ha, hac⟩
    · intro c hc
      apply h
      simp only [List.mem_flatMap]
      exact ⟨f, List.mem_cons_self f rest, hc⟩

theorem childrenVisit_congr {H1 H2 : Handlers} {n : PyNode}
    (h : ∀ c ∈ childNodes n, resolve H1 c = resolve H2 c) :
    childrenVisit H1 n = childrenVisit H2 n := by
  rw [childrenVisit, childrenVisit, childrenFields_congr n.fields h]

/-- C6: visit resolves the handler by the concrete class name of the node —
a registered visit_<name> method is invoked, otherwise the generic fallback
generic_visit is — and registering an additional handler for a class name
carried by no node reachable from the tree (registration itself cannot
fail) leaves the resolution at the root, the value visit returns, and the
in-place edit of the whole tree unchanged. -/
theorem c6_dispatch_and_unused_handler_has_no_effect :
    (∀ (H : Handlers) (n : PyNode) (h : PyNode → PyVal),
      resolve H n = some h → visit H n = h n) ∧
    (∀ (H : Handlers) (n : PyNode),
      resolve H n = none → visit H n = genericVisit H n) ∧
    (∀ (H : Handlers) (t : String) (f : PyNode → PyVal) (n : PyNode),
      t ∉ reachableTags n →
      resolve (updateH H ("visit_" ++ t) f) n = resolve H n ∧
      visit (updateH H ("visit_" ++ t) f) n = visit H n ∧
      childrenVisit (updateH H ("visit_" ++ t) f) n = childrenVisit H n) := by
  refine ⟨?_, ?_, ?_⟩
  · intro H n h hres
    match n with
    | .mk cls fs => simp [visit, hres]
  · intro H n hres
    match n with
    | .mk cls fs => simp [visit, genericVisit, hres]
  · intro H t f n hnot
    have hname : ∀ m ∈ reachable n, m.cls.name ≠ t := by
      intro m hm he
      exact hnot (List.mem_map.2 ⟨m, hm, he⟩)
    have hroot : resolve (updateH H ("visit_" ++ t) f) n = resolve H n :=
      resolve_updateH_of_name_ne (hname n (mem_reachable_self n))
    refine ⟨hroot, visit_congr hroot, childrenVisit_congr ?_⟩
    intro c hc
    exact resolve_updateH_of_name_ne
      (hname c (mem_reachable_of_child hc (mem_reachable_self c)))

/-- C6 witness: registering a handler for the class name Missing, which no
node of the tree carries, changes nothing about visiting the T node. -/
theorem c6_dispatch_and_unused_handler_has_no_effect_witness :
    resolve (updateH emptyH ("visit_" ++ "Missing") (fun n => PyVal.pnode n)) tChild =
      resolve emptyH tChild ∧
    visit (updateH emptyH ("visit_" ++ "Missing") (fun n => PyVal.pnode n)) tChild =
      visit emptyH tChild ∧
    childrenVisit (updateH emptyH ("visit_" ++ "Missing") (fun n => PyVal.pnode n)) tChild =
      childrenVisit emptyH tChild :=
  c6_dispatch_and_unused_handler_has_no_effect.2.2 emptyH "Missing"
    (fun n => PyVal.pnode n) tChild
    (by
      have h : reachableTags tChild = ["T"] := by
        rw [reachableTags, reachable_unfold]
        simp [childNodes, tChild, tCls, PyNode.fields, PyNode.cls, fieldChildNodes]
      rw [h]
      decide)

end Py2C
